import Mathlib

/-!
Verification development for the research-agent workflow orchestrator.

The definitions below are a shallow embedding of the repository's core
control flow and data model:

* `src/tools/link_analyzer.py` — URL classification (`is_arxiv`,
  `is_wikipedia`, `classify`, `extract_arxiv_id`,
  `extract_wikipedia_title`), including a model of the relevant
  behaviour of Python's `urllib.parse.urlparse` (scheme/netloc/path
  splitting, fragment/query/params removal, the IPv6-bracket
  `ValueError`, which the analyzer catches).
* `src/hitl/plan_review.py` — the `edit_plan` modify flow.
* `src/orchestrator.py` — the planning retry loop (`_planning_phase`)
  and the writer/editor reflection loop (`_writing_phase`).
* `src/agents/writer.py` — `write_report` / `revise_report`.
* `src/agents/researcher.py` — `_build_enriched_sources`.
* `src/cli/main.py` — the exit-code mapping of the CLI entry point.

LLM calls, terminal prompts and search/extraction backends are external
collaborators; they appear as explicit oracle parameters (decision
sequences, feedback sequences, draft values).
-/

/-! ## Python string helpers (character-list level) -/

/-- Strip characters satisfying `p` from both ends (Python `str.strip(chars)`). -/
def pyStrip (p : Char → Bool) (l : List Char) : List Char :=
  ((l.dropWhile p).reverse.dropWhile p).reverse

/-- C0 control characters and space, stripped by `urlsplit` before parsing. -/
def isC0OrSpace (c : Char) : Bool := c.toNat ≤ 32

/-- Python substring test `pat in l`. -/
def containsSub (pat : List Char) : List Char → Bool
  | [] => pat.isEmpty
  | c :: rest => pat.isPrefixOf (c :: rest) || containsSub pat rest

/-- Everything after the first occurrence of `pat`; `none` when `pat` is absent. -/
def afterFirst (pat : List Char) : List Char → Option (List Char)
  | [] => if pat.isEmpty then some [] else none
  | c :: rest =>
    if pat.isPrefixOf (c :: rest) then some ((c :: rest).drop pat.length)
    else afterFirst pat rest

/-- Everything before the first occurrence of `pat` (the whole list when absent);
Python `l.split(pat)[0]`. -/
def beforeFirst (pat : List Char) : List Char → List Char
  | [] => []
  | c :: rest =>
    if pat.isPrefixOf (c :: rest) then []
    else c :: beforeFirst pat rest

/-- Python `l.split(pat)[1]`: the segment between the first and second
occurrence of `pat` (valid only when `pat` occurs). -/
def pySplitSnd (pat l : List Char) : Option (List Char) :=
  (afterFirst pat l).map (beforeFirst pat)

/-- Fuel-indexed scan for `replaceAll`; each step consumes at least one
character, so fuel equal to the list length is always sufficient. -/
def replaceAllAux (pat repl : List Char) : Nat → List Char → List Char
  | 0, l => l
  | _ + 1, [] => []
  | fuel + 1, c :: rest =>
    if pat ≠ [] ∧ pat.isPrefixOf (c :: rest) then
      repl ++ replaceAllAux pat repl fuel ((c :: rest).drop pat.length)
    else
      c :: replaceAllAux pat repl fuel rest

/-- Python `l.replace(pat, repl)`: replace every occurrence. -/
def replaceAll (pat repl l : List Char) : List Char :=
  replaceAllAux pat repl l.length l

/-! ## Model of `urllib.parse.urlparse` (netloc and path only)

The analyzer only reads `parsed.netloc` and `parsed.path`, and catches
the `ValueError` that `urlsplit` raises for mismatched IPv6 brackets in
the netloc, so the model returns `none` in exactly that case. -/

structure ParsedUrl where
  netloc : String
  path : String
deriving DecidableEq

/-- Valid characters of a URL scheme (`ascii_letters + digits + '+-.'`). -/
def isSchemeChar (c : Char) : Bool :=
  c.isAlpha || c.isDigit || c == '+' || c == '-' || c == '.'

/-- Drop a leading `scheme:` when the prefix before the first `:` is a valid
scheme (first character a letter, the rest scheme characters). -/
def splitSchemeRest (l : List Char) : List Char :=
  match l.findIdx? (· == ':') with
  | some i =>
    if 0 < i ∧ (l.take 1).all Char.isAlpha ∧ (l.take i).all isSchemeChar then
      l.drop (i + 1)
    else l
  | none => l

/-- When the remainder starts with `//`, split off the netloc (up to the first
of `/`, `?`, `#`). -/
def splitNetlocRest (l : List Char) : List Char × List Char :=
  if l.take 2 = ['/', '/'] then
    ((l.drop 2).takeWhile (fun c => !(c == '/' || c == '?' || c == '#')),
     (l.drop 2).dropWhile (fun c => !(c == '/' || c == '?' || c == '#')))
  else ([], l)

/-- The IPv6-bracket validity check of `urlsplit`: a `[` without `]` (or vice
versa) in the netloc raises `ValueError`. -/
def validNetloc (nl : List Char) : Bool :=
  (nl.contains '[') == (nl.contains ']')

/-- `urlparse` splits `;params` off the last path segment when a `;` is
present. -/
def splitParamsPath (l : List Char) : List Char :=
  if containsSub [';'] l then
    if containsSub ['/'] l then
      let lastSlash := l.length - 1 - ((l.reverse.findIdx? (· == '/')).getD 0)
      match (l.drop lastSlash).findIdx? (· == ';') with
      | some j => l.take (lastSlash + j)
      | none => l
    else l.takeWhile (· ≠ ';')
  else l

/-- Model of `urllib.parse.urlparse`, restricted to the `netloc` and `path`
attributes used by the link analyzer. `none` models the `ValueError` raised
for mismatched IPv6 brackets. -/
def pyUrlparse (url : String) : Option ParsedUrl :=
  let l0 := pyStrip isC0OrSpace url.toList
  let l1 := l0.filter (fun c => !(c == '\t' || c == '\r' || c == '\n'))
  let rest := splitSchemeRest l1
  let (nl, rest2) := splitNetlocRest rest
  if validNetloc nl then
    some ⟨String.mk nl, String.mk (splitParamsPath (beforeFirst ['?'] (beforeFirst ['#'] rest2)))⟩
  else none

/-! ## `src/tools/link_analyzer.py` -/

def ARXIV_DOMAINS : List String := ["arxiv.org"]
def ARXIV_PATTERNS : List String := ["/abs/", "/pdf/"]
def WIKIPEDIA_DOMAINS : List String := ["wikipedia.org", "en.wikipedia.org"]
def WIKIPEDIA_PATTERNS : List String := ["/wiki/"]

def listToLower (l : List Char) : List Char := l.map Char.toLower

/-- `LinkAnalyzer._is_arxiv`: domain contains a recognized arXiv host and the
lower-cased path contains an abstract/PDF pattern; any parse error yields
`false`. -/
def is_arxiv (url : String) : Bool :=
  match pyUrlparse url with
  | none => false
  | some parsed =>
    let domain := listToLower parsed.netloc.toList
    if !(ARXIV_DOMAINS.any (fun d => containsSub d.toList domain)) then false
    else ARXIV_PATTERNS.any (fun p => containsSub p.toList (listToLower parsed.path.toList))

/-- `LinkAnalyzer._is_wikipedia`. -/
def is_wikipedia (url : String) : Bool :=
  match pyUrlparse url with
  | none => false
  | some parsed =>
    let domain := listToLower parsed.netloc.toList
    if !(WIKIPEDIA_DOMAINS.any (fun d => containsSub d.toList domain)) then false
    else WIKIPEDIA_PATTERNS.any (fun p => containsSub p.toList (listToLower parsed.path.toList))

structure ClassifiedLinks where
  arxiv : List String
  wikipedia : List String
  other : List String
deriving DecidableEq

/-- The classification loop of `LinkAnalyzer.classify`, appending each URL to
the list of its class (arXiv tested first). -/
def classifyAux (acc : ClassifiedLinks) : List String → ClassifiedLinks
  | [] => acc
  | url :: rest =>
    if is_arxiv url then classifyAux { acc with arxiv := acc.arxiv ++ [url] } rest
    else if is_wikipedia url then classifyAux { acc with wikipedia := acc.wikipedia ++ [url] } rest
    else classifyAux { acc with other := acc.other ++ [url] } rest

/-- `LinkAnalyzer.classify`. -/
def classify (urls : List String) : ClassifiedLinks :=
  classifyAux ⟨[], [], []⟩ urls

/-- Body of the per-pattern step of `extract_arxiv_id`: when `pat` occurs in
`path`, Python's `path.split(pat)[1]`. -/
def extractAfterPat (path : List Char) (pat : String) : Option (List Char) :=
  if containsSub pat.toList path then pySplitSnd pat.toList path
  else none

/-- `LinkAnalyzer.extract_arxiv_id`: the segment after `/abs/` or `/pdf/`,
with `.pdf` removed and surrounding `/` stripped. -/
def extract_arxiv_id (url : String) : Option String :=
  match pyUrlparse url with
  | none => none
  | some parsed =>
    match ARXIV_PATTERNS.findSome? (extractAfterPat parsed.path.toList) with
    | some idPart => some (String.mk (pyStrip (· == '/') (replaceAll ".pdf".toList [] idPart)))
    | none => none

/-- `LinkAnalyzer.extract_wikipedia_title`: the segment after `/wiki/`, with
fragment and query removed; empty titles yield `none`. -/
def extract_wikipedia_title (url : String) : Option String :=
  match pyUrlparse url with
  | none => none
  | some parsed =>
    let path := parsed.path.toList
    if containsSub "/wiki/".toList path then
      match pySplitSnd "/wiki/".toList path with
      | some t =>
        let title := beforeFirst ['?'] (beforeFirst ['#'] t)
        if title.isEmpty then none else some (String.mk (pyStrip (· == '/') title))
      | none => none
    else none


/-! ## Data model (`src/models/plan.py`, `src/models/research.py`,
`src/models/report.py`)

Python floats (the Tavily relevance score) are modelled as exact
rationals; no claim inspects their arithmetic. The per-kind metadata
dicts built at the three merge sites are modelled as a closed tagged
union. -/

structure ResearchTask where
  id : String
  query : String
  reasoning : String
deriving DecidableEq

structure ResearchPlan where
  question : String
  tasks : List ResearchTask
  strategy : String
deriving DecidableEq

/-- A human decision collected by `PlanReviewer.review`: the `quit` choice
makes `review` raise `KeyboardInterrupt`, the others produce a
`HumanPlanReview` (with the edited plan for `modify`, feedback text for
`reject`). -/
inductive PlanDecision where
  | approve : PlanDecision
  | modify (modifiedPlan : Option ResearchPlan) : PlanDecision
  | reject (feedback : String) : PlanDecision
  | quit : PlanDecision
deriving DecidableEq

structure TavilyResult where
  title : String
  url : String
  content : String
  score : Rat
deriving DecidableEq

structure ArXivPaper where
  arxiv_id : String
  title : String
  authors : List String
  abstract : String
  published : String
  url : String
  pdf_url : String
  categories : List String
deriving DecidableEq

structure WikiArticle where
  title : String
  url : String
  summary : String
  content : String
  categories : List String
deriving DecidableEq

inductive SourceType where
  | web
  | arxiv
  | wikipedia
deriving DecidableEq

/-- The three metadata-dict shapes constructed in
`ResearcherAgent._build_enriched_sources`. -/
inductive SourceMeta where
  | arxivMeta (authors : List String) (published : String) (categories : List String)
  | wikiMeta (categories : List String)
  | webMeta (score : Rat)
deriving DecidableEq

structure EnrichedSource where
  source_type : SourceType
  url : String
  title : String
  content : String
  metadata : SourceMeta
deriving DecidableEq

structure ResearchFindings where
  task_id : String
  query : String
  sources : List EnrichedSource
  arxiv_papers : List ArXivPaper
  wikipedia_articles : List WikiArticle
  summary : String
deriving DecidableEq

/-- The structured (title, content) output of one writer LLM call. -/
structure ReportDraft where
  title : String
  content : String
deriving DecidableEq

structure FinalReport where
  title : String
  content : String
  sources : List EnrichedSource
  iterations : Int
deriving DecidableEq

structure EditorFeedback where
  approved : Bool
  score : Int
  issues : List String
  suggestions : List String
deriving DecidableEq

/-! ## `Orchestrator._planning_phase` (`src/orchestrator.py`)

The loop `while plan_attempts < max_plan_attempts` with the human decision
per attempt supplied as a sequence, and the planner's `create_plan` /
`replan` results supplied as oracles. The result records the terminal
outcome, the number of `replan` calls made, and the list of plans
presented for review, in order. -/

inductive PlanningResult where
  | approved (plan : ResearchPlan)
  | exhausted
  | noPlan
  | unexpectedEnd
  | aborted
deriving DecidableEq

def planningLoop (maxAttempts : Nat) (createPlan : ResearchPlan)
    (replanOracle : Nat → String → ResearchPlan) (decision : Nat → PlanDecision)
    (attempts : Nat) (plan : Option ResearchPlan) (replans : Nat)
    (reviewed : List ResearchPlan) : PlanningResult × Nat × List ResearchPlan :=
  if h : attempts < maxAttempts then
    let att := attempts + 1
    let planNow := if att = 1 then some createPlan else plan
    match planNow with
    | none => (.noPlan, replans, reviewed)
    | some p =>
      match decision att with
      | .quit => (.aborted, replans, reviewed ++ [p])
      | .approve => (.approved p, replans, reviewed ++ [p])
      | .modify mp => (.approved (mp.getD p), replans, reviewed ++ [p])
      | .reject fb =>
        if maxAttempts ≤ att then (.exhausted, replans, reviewed ++ [p])
        else
          planningLoop maxAttempts createPlan replanOracle decision att
            (some (replanOracle att fb)) (replans + 1) (reviewed ++ [p])
  else (.unexpectedEnd, replans, reviewed)
termination_by maxAttempts - attempts
decreasing_by omega

def planningPhase (maxAttempts : Nat) (createPlan : ResearchPlan)
    (replanOracle : Nat → String → ResearchPlan) (decision : Nat → PlanDecision) :
    PlanningResult × Nat × List ResearchPlan :=
  planningLoop maxAttempts createPlan replanOracle decision 0 none 0 []

/-! ## `PlanReviewer.edit_plan` (`src/hitl/plan_review.py`)

Per original task (1-indexed, as in `enumerate(plan.tasks, 1)`) the human
supplies a query string (`Prompt.ask` with the current query as default);
a task is dropped when that string, stripped and lower-cased, is one of
the delete words and the deletion is confirmed. Appended tasks get ids
`task_<len(modified_tasks) + 1>`. -/

def deleteWords : List String := ["delete", "remove", "skip"]

/-- Python `str.strip()` default whitespace (the ASCII subset). -/
def isPyWhitespace (c : Char) : Bool :=
  c == ' ' || c == '\t' || c == '\n' || c == '\r' || c == '\x0b' || c == '\x0c'

/-- Python `s.strip().lower()`. -/
def pyLowerStrip (s : String) : String :=
  String.mk (listToLower (pyStrip isPyWhitespace s.toList))

def keptTasks (newQuery : Nat → String) (confirmDelete : Nat → Bool) :
    Nat → List ResearchTask → List ResearchTask
  | _, [] => []
  | i, t :: rest =>
    let nq := newQuery i
    if deleteWords.contains (pyLowerStrip nq) && confirmDelete i then
      keptTasks newQuery confirmDelete (i + 1) rest
    else
      ⟨t.id, nq, t.reasoning⟩ :: keptTasks newQuery confirmDelete (i + 1) rest

def addNewTasks : List ResearchTask → List (String × String) → List ResearchTask
  | tasks, [] => tasks
  | tasks, (q, reasoning) :: rest =>
    addNewTasks (tasks ++ [⟨"task_" ++ toString (tasks.length + 1), q, reasoning⟩]) rest

def edit_plan (plan : ResearchPlan) (newQuery : Nat → String) (confirmDelete : Nat → Bool)
    (newTasks : List (String × String)) : ResearchPlan :=
  ⟨plan.question, addNewTasks (keptTasks newQuery confirmDelete 1 plan.tasks) newTasks,
   plan.strategy⟩

/-! ## `ResearcherAgent._build_enriched_sources` (`src/agents/researcher.py`) -/

def paperSource (url : String) (p : ArXivPaper) : EnrichedSource :=
  ⟨.arxiv, url, p.title, p.abstract, .arxivMeta p.authors p.published p.categories⟩

def articleSource (url : String) (a : WikiArticle) : EnrichedSource :=
  ⟨.wikipedia, url, a.title, a.summary, .wikiMeta a.categories⟩

def webSource (r : TavilyResult) : EnrichedSource :=
  ⟨.web, r.url, r.title, r.content, .webMeta r.score⟩

/-- The body of the first merge pass: substitute the (first) enriched record
with a matching URL, arXiv before Wikipedia, else keep the raw result as a
`web` source. -/
def enrichTavilyResult (arxiv_papers : List ArXivPaper)
    (wikipedia_articles : List WikiArticle) (r : TavilyResult) : EnrichedSource :=
  match arxiv_papers.find? (fun p => p.url == r.url) with
  | some p => paperSource r.url p
  | none =>
    match wikipedia_articles.find? (fun a => a.url == r.url) with
    | some a => articleSource r.url a
    | none => webSource r

def appendPaperIfNew (sources : List EnrichedSource) (p : ArXivPaper) :
    List EnrichedSource :=
  if (sources.map (·.url)).contains p.url then sources
  else sources ++ [paperSource p.url p]

def appendArticleIfNew (sources : List EnrichedSource) (a : WikiArticle) :
    List EnrichedSource :=
  if (sources.map (·.url)).contains a.url then sources
  else sources ++ [articleSource a.url a]

def build_enriched_sources (tavily_results : List TavilyResult)
    (arxiv_papers : List ArXivPaper) (wikipedia_articles : List WikiArticle) :
    List EnrichedSource :=
  let pass1 := tavily_results.map (enrichTavilyResult arxiv_papers wikipedia_articles)
  let pass2 := arxiv_papers.foldl appendPaperIfNew pass1
  wikipedia_articles.foldl appendArticleIfNew pass2

/-! ## `WriterAgent` (`src/agents/writer.py`)

The LLM draft of each call is an oracle value. -/

def write_report (draft : ReportDraft) (findings : List ResearchFindings) : FinalReport :=
  ⟨draft.title, draft.content, (findings.map (·.sources)).flatten, 1⟩

def revise_report (revised : ReportDraft) (current : FinalReport) : FinalReport :=
  ⟨revised.title, revised.content, current.sources, current.iterations + 1⟩

/-- `K` completed revisions applied after an initial report. -/
def applyRevisions (drafts : Nat → ReportDraft) : Nat → FinalReport → FinalReport
  | 0, r => r
  | k + 1, r => revise_report (drafts k) (applyRevisions drafts k r)

/-! ## `Orchestrator._writing_phase` reflection loop (`src/orchestrator.py`)

The editor feedback of each call is supplied as a sequence and the writer
revision as an oracle. The result records the returned report, the number
of editor calls, the number of revision calls, and which branch ended the
loop. -/

inductive ReflectionExit where
  | editorApproved
  | thresholdMet
  | budgetExhausted
deriving DecidableEq

def reflectionLoop (maxIterations : Nat) (threshold : Int)
    (editorOracle : Nat → EditorFeedback) (reviseOracle : Nat → FinalReport → FinalReport)
    (iteration : Nat) (report : FinalReport) (editorCalls reviseCalls : Nat) :
    FinalReport × Nat × Nat × ReflectionExit :=
  if h : iteration < maxIterations then
    let it := iteration + 1
    let fb := editorOracle it
    if fb.approved then (report, editorCalls + 1, reviseCalls, .editorApproved)
    else if threshold ≤ fb.score then (report, editorCalls + 1, reviseCalls, .thresholdMet)
    else if maxIterations ≤ it then (report, editorCalls + 1, reviseCalls, .budgetExhausted)
    else
      reflectionLoop maxIterations threshold editorOracle reviseOracle it
        (reviseOracle it report) (editorCalls + 1) (reviseCalls + 1)
  else (report, editorCalls, reviseCalls, .budgetExhausted)
termination_by maxIterations - iteration
decreasing_by omega

def writingPhase (maxIterations : Nat) (threshold : Int)
    (editorOracle : Nat → EditorFeedback) (reviseOracle : Nat → FinalReport → FinalReport)
    (draft : FinalReport) : FinalReport × Nat × Nat × ReflectionExit :=
  reflectionLoop maxIterations threshold editorOracle reviseOracle 0 draft 0 0

/-! ## CLI exit-code contract (`src/cli/main.py`)

`cli()` wraps the whole run: `KeyboardInterrupt` (raised by the reviewer on
`quit`) is caught and exits with status 0; any other exception exits with
status 1; normal completion returns (status 0). -/

inductive WorkflowOutcome where
  | completed (report : FinalReport)
  | abortedByUser
  | fatalError (message : String)
deriving DecidableEq

def cliExitCode : WorkflowOutcome → Nat
  | .completed _ => 0
  | .abortedByUser => 0
  | .fatalError _ => 1

def isFatalOrAbort : WorkflowOutcome → Bool
  | .completed _ => false
  | .abortedByUser => true
  | .fatalError _ => true

/-- How a planning-phase result propagates out of `Orchestrator.run`: an
approved plan continues with the rest of the workflow, `KeyboardInterrupt`
and the `RuntimeError`s propagate uncaught to `cli()`. -/
def planningOutcome (pr : PlanningResult)
    (restOfWorkflow : ResearchPlan → WorkflowOutcome) : WorkflowOutcome :=
  match pr with
  | .approved p => restOfWorkflow p
  | .aborted => .abortedByUser
  | .exhausted => .fatalError "Maximum plan attempts exceeded"
  | .noPlan => .fatalError "Failed to create plan"
  | .unexpectedEnd => .fatalError "Unexpected end of planning phase"

/-! ## Helper lemmas -/

lemma classifyAux_eq (urls : List String) : ∀ acc,
    classifyAux acc urls =
      ⟨acc.arxiv ++ urls.filter (fun u => is_arxiv u),
       acc.wikipedia ++ urls.filter (fun u => !is_arxiv u && is_wikipedia u),
       acc.other ++ urls.filter (fun u => !is_arxiv u && !is_wikipedia u)⟩ := by
  induction urls with
  | nil => intro acc; simp [classifyAux]
  | cons u rest ih =>
    intro acc
    by_cases h1 : is_arxiv u
    · simp [classifyAux, h1, ih, List.filter_cons, List.append_assoc]
    · by_cases h2 : is_wikipedia u
      · simp [classifyAux, h1, h2, ih, List.filter_cons, List.append_assoc]
      · simp [classifyAux, h1, h2, ih, List.filter_cons, List.append_assoc]

lemma three_filter_length (urls : List String) :
    (urls.filter (fun u => is_arxiv u)).length +
      (urls.filter (fun u => !is_arxiv u && is_wikipedia u)).length +
      (urls.filter (fun u => !is_arxiv u && !is_wikipedia u)).length = urls.length := by
  induction urls with
  | nil => simp
  | cons u rest ih =>
    by_cases h1 : is_arxiv u <;> by_cases h2 : is_wikipedia u <;>
      simp [List.filter_cons, h1, h2] <;> omega

lemma applyRevisions_iterations (drafts : Nat → ReportDraft) (K : Nat) (r : FinalReport) :
    (applyRevisions drafts K r).iterations = r.iterations + K := by
  induction K with
  | zero => simp [applyRevisions]
  | succ k ih => simp [applyRevisions, revise_report, ih]; ring

lemma keptTasks_mem (newQuery : Nat → String) (confirmDelete : Nat → Bool) :
    ∀ (tasks : List ResearchTask) (i j : Nat) (hj : j < tasks.length),
      (deleteWords.contains (pyLowerStrip (newQuery (i + j))) && confirmDelete (i + j)) = false →
      (⟨(tasks.get ⟨j, hj⟩).id, newQuery (i + j), (tasks.get ⟨j, hj⟩).reasoning⟩ : ResearchTask) ∈
        keptTasks newQuery confirmDelete i tasks := by
  intro tasks
  induction tasks with
  | nil => intro i j hj; simp at hj
  | cons t rest ih =>
    intro i j hj hkeep
    match j with
    | 0 =>
      simp only [Nat.add_zero] at hkeep
      have hcond : ¬(pyLowerStrip (newQuery i) ∈ deleteWords ∧ confirmDelete i = true) := by
        simpa using hkeep
      simp [keptTasks, hcond]
    | j' + 1 =>
      have hj' : j' < rest.length := by simpa using hj
      have hstep := ih (i + 1) j' hj' (by
        have harg : i + 1 + j' = i + (j' + 1) := by omega
        rw [harg]; exact hkeep)
      have harg : i + 1 + j' = i + (j' + 1) := by omega
      rw [harg] at hstep
      have hget : ((t :: rest).get ⟨j' + 1, hj⟩) = rest.get ⟨j', hj'⟩ := rfl
      rw [hget]
      show _ ∈ keptTasks newQuery confirmDelete i (t :: rest)
      simp only [keptTasks]
      by_cases hdel : (deleteWords.contains (pyLowerStrip (newQuery i)) && confirmDelete i) = true
      · rw [if_pos hdel]; exact hstep
      · rw [if_neg hdel]
        exact List.mem_cons_of_mem _ hstep

lemma addNewTasks_append (newTasks : List (String × String)) :
    ∀ tasks, ∃ suffix, addNewTasks tasks newTasks = tasks ++ suffix := by
  induction newTasks with
  | nil => intro tasks; exact ⟨[], by simp [addNewTasks]⟩
  | cons x rest ih =>
    intro tasks
    obtain ⟨s, hs⟩ := ih (tasks ++ [⟨"task_" ++ toString (tasks.length + 1), x.1, x.2⟩])
    exact ⟨⟨"task_" ++ toString (tasks.length + 1), x.1, x.2⟩ :: s, by
      simp only [addNewTasks, hs, List.append_assoc, List.singleton_append]⟩

/-! ## Claim theorems -/

/-- C9: `classify` partitions its input: each URL lands in exactly one of the
three lists (arXiv tested before Wikipedia), relative order is preserved
within each list (each class equals a filter of the input), and the three
output lengths sum to the input length. -/
theorem spec_C9_classify_partition (urls : List String) :
    classify urls =
      ⟨urls.filter (fun u => is_arxiv u),
       urls.filter (fun u => !is_arxiv u && is_wikipedia u),
       urls.filter (fun u => !is_arxiv u && !is_wikipedia u)⟩ ∧
    (classify urls).arxiv.length + (classify urls).wikipedia.length +
      (classify urls).other.length = urls.length := by
  have h := classifyAux_eq urls ⟨[], [], []⟩
  simp only [List.nil_append] at h
  refine ⟨h, ?_⟩
  rw [show classify urls = classifyAux ⟨[], [], []⟩ urls from rfl, h]
  exact three_filter_length urls

/-- C6: the link classifier maps the arXiv abstract URL to the paper class
with id `2301.00001`, the Wikipedia URL to the encyclopedia class with title
`Machine_learning`, `https://example.com/page` and the empty (malformed)
string to `other`; being total functions, the embedded classifiers never
raise. -/
theorem spec_C6_url_classification :
    is_arxiv "https://arxiv.org/abs/2301.00001" = true ∧
    extract_arxiv_id "https://arxiv.org/abs/2301.00001" = some "2301.00001" ∧
    is_wikipedia "https://en.wikipedia.org/wiki/Machine_learning" = true ∧
    is_arxiv "https://en.wikipedia.org/wiki/Machine_learning" = false ∧
    extract_wikipedia_title "https://en.wikipedia.org/wiki/Machine_learning" =
      some "Machine_learning" ∧
    is_arxiv "https://example.com/page" = false ∧
    is_wikipedia "https://example.com/page" = false ∧
    is_arxiv "" = false ∧
    is_wikipedia "" = false ∧
    classify ["https://arxiv.org/abs/2301.00001",
              "https://en.wikipedia.org/wiki/Machine_learning",
              "https://example.com/page", ""] =
      ⟨["https://arxiv.org/abs/2301.00001"],
       ["https://en.wikipedia.org/wiki/Machine_learning"],
       ["https://example.com/page", ""]⟩ := by
  decide

/-- C5: `revise_report` keeps the prior report's source list and increments
`iterations`; `write_report` starts at `iterations = 1`; hence after `K`
completed revisions `iterations = 1 + K`. -/
theorem spec_C5_report_iterations (revised : ReportDraft) (current : FinalReport)
    (draft : ReportDraft) (findings : List ResearchFindings)
    (drafts : Nat → ReportDraft) (K : Nat) :
    (revise_report revised current).sources = current.sources ∧
    (revise_report revised current).iterations = current.iterations + 1 ∧
    (write_report draft findings).iterations = 1 ∧
    (applyRevisions drafts K (write_report draft findings)).iterations = 1 + (K : Int) := by
  refine ⟨rfl, rfl, rfl, ?_⟩
  rw [applyRevisions_iterations]
  simp [write_report]

/-- C10: with `max_reflection_iterations = 0` the reflection loop body is
never entered: no editor call, no revision call, and the initial draft is
returned unchanged with `iterations = 1`. -/
theorem spec_C10_zero_reflection_budget (threshold : Int)
    (editorOracle : Nat → EditorFeedback) (reviseOracle : Nat → FinalReport → FinalReport)
    (draft : ReportDraft) (findings : List ResearchFindings) :
    writingPhase 0 threshold editorOracle reviseOracle (write_report draft findings) =
      (write_report draft findings, 0, 0, ReflectionExit.budgetExhausted) ∧
    (write_report draft findings).iterations = 1 := by
  constructor
  · rw [writingPhase, reflectionLoop]
    simp
  · rfl

/-- C8: the modify flow changes only what the human edits: the returned plan
keeps the original question and strategy, and every original task that is not
deleted appears in the returned plan with its id and reasoning unchanged and
its query replaced by the human's input for that task. -/
theorem spec_C8_edit_plan_frame (plan : ResearchPlan) (newQuery : Nat → String)
    (confirmDelete : Nat → Bool) (newTasks : List (String × String)) :
    (edit_plan plan newQuery confirmDelete newTasks).question = plan.question ∧
    (edit_plan plan newQuery confirmDelete newTasks).strategy = plan.strategy ∧
    ∀ (j : Nat) (hj : j < plan.tasks.length),
      (deleteWords.contains (pyLowerStrip (newQuery (j + 1))) && confirmDelete (j + 1)) = false →
      (⟨(plan.tasks.get ⟨j, hj⟩).id, newQuery (j + 1), (plan.tasks.get ⟨j, hj⟩).reasoning⟩ :
        ResearchTask) ∈ (edit_plan plan newQuery confirmDelete newTasks).tasks := by
  refine ⟨rfl, rfl, ?_⟩
  intro j hj hkeep
  have hmem := keptTasks_mem newQuery confirmDelete plan.tasks 1 j hj (by
    have harg : 1 + j = j + 1 := by omega
    rw [harg]; exact hkeep)
  have harg : 1 + j = j + 1 := by omega
  rw [harg] at hmem
  obtain ⟨suffix, hsuf⟩ :=
    addNewTasks_append newTasks (keptTasks newQuery confirmDelete 1 plan.tasks)
  show _ ∈ addNewTasks (keptTasks newQuery confirmDelete 1 plan.tasks) newTasks
  rw [hsuf]
  exact List.mem_append_left _ hmem

/-- C8 witness: a concrete plan whose first task is kept with an edited query,
exercising the frame theorem at that input. -/
theorem spec_C8_edit_plan_frame_witness :
    (edit_plan ⟨"q", [⟨"task_1", "a", "r1"⟩], "s"⟩ (fun _ => "new query") (fun _ => false)
        [("extra", "r2")]).question = "q" ∧
    (⟨"task_1", "new query", "r1"⟩ : ResearchTask) ∈
      (edit_plan ⟨"q", [⟨"task_1", "a", "r1"⟩], "s"⟩ (fun _ => "new query") (fun _ => false)
        [("extra", "r2")]).tasks := by
  have h := spec_C8_edit_plan_frame ⟨"q", [⟨"task_1", "a", "r1"⟩], "s"⟩
    (fun _ => "new query") (fun _ => false) [("extra", "r2")]
  exact ⟨h.1, h.2.2 0 (by decide) (by decide)⟩

/-- C3: the code violates task-id uniqueness. Deleting the first task of a
two-task plan and appending one new task yields the generated id
`task_<len(modified_tasks) + 1> = task_2`, which collides with the kept
original id `task_2`: the approval sub-machine returns a plan with duplicate
task ids. -/
theorem spec_C3_duplicate_task_ids :
    ((edit_plan ⟨"q", [⟨"task_1", "a", "r1"⟩, ⟨"task_2", "b", "r2"⟩], "s"⟩
        (fun i => if i = 1 then "delete" else "b")
        (fun _ => true)
        [("c", "r3")]).tasks.map (fun t => t.id)) = ["task_2", "task_2"] ∧
    ((edit_plan ⟨"q", [⟨"task_1", "a", "r1"⟩, ⟨"task_2", "b", "r2"⟩], "s"⟩
        (fun i => if i = 1 then "delete" else "b")
        (fun _ => true)
        [("c", "r3")]).tasks.map (fun t => t.id)).count "task_2" = 2 := by
  constructor <;> decide

/-- C7 counterexample: the claim demands a non-zero exit status on any fatal
error or user abort, but the CLI catches the `KeyboardInterrupt` raised by a
`quit` decision and exits with status 0. -/
theorem spec_C7_counterexample :
    isFatalOrAbort WorkflowOutcome.abortedByUser = true ∧
    cliExitCode WorkflowOutcome.abortedByUser = 0 := by
  constructor <;> rfl

/-- C7 (amended): fatal errors exit with status 1 (non-zero); a `quit`
decision during plan review aborts the whole workflow (the planning phase
ends in the aborted state), and that user abort exits with status 0, the
deliberate-cancellation path. -/
theorem spec_C7_exit_codes (msg : String) (restOfWorkflow : ResearchPlan → WorkflowOutcome)
    (N : Nat) (hN : 1 ≤ N) (c : ResearchPlan) (rp : Nat → String → ResearchPlan)
    (d : Nat → PlanDecision) (hq : d 1 = PlanDecision.quit) :
    cliExitCode (WorkflowOutcome.fatalError msg) = 1 ∧
    cliExitCode WorkflowOutcome.abortedByUser = 0 ∧
    (planningPhase N c rp d).1 = PlanningResult.aborted ∧
    cliExitCode (planningOutcome (planningPhase N c rp d).1 restOfWorkflow) = 0 := by
  have h1 : (planningPhase N c rp d).1 = PlanningResult.aborted := by
    rw [planningPhase, planningLoop]
    have h0 : 0 < N := hN
    simp [h0, hq]
  exact ⟨rfl, rfl, h1, by rw [h1]; rfl⟩

/-- C7 witness: concrete instantiation with a three-attempt budget and a
human who quits at the first review. -/
theorem spec_C7_exit_codes_witness :
    cliExitCode (WorkflowOutcome.fatalError "boom") = 1 ∧
    cliExitCode WorkflowOutcome.abortedByUser = 0 ∧
    (planningPhase 3 ⟨"q", [], "s"⟩ (fun _ _ => ⟨"q", [], "s"⟩)
      (fun _ => PlanDecision.quit)).1 = PlanningResult.aborted ∧
    cliExitCode (planningOutcome
      (planningPhase 3 ⟨"q", [], "s"⟩ (fun _ _ => ⟨"q", [], "s"⟩)
        (fun _ => PlanDecision.quit)).1
      (fun _ => WorkflowOutcome.completed ⟨"t", "c", [], 1⟩)) = 0 :=
  spec_C7_exit_codes "boom" (fun _ => WorkflowOutcome.completed ⟨"t", "c", [], 1⟩)
    3 (by decide) ⟨"q", [], "s"⟩ (fun _ _ => ⟨"q", [], "s"⟩)
    (fun _ => PlanDecision.quit) rfl

lemma planningLoop_all_reject (N : Nat) (c : ResearchPlan)
    (rp : Nat → String → ResearchPlan) (dec : Nat → PlanDecision) (fbs : Nat → String)
    (hdec : ∀ k, 1 ≤ k → k ≤ N → dec k = PlanDecision.reject (fbs k)) :
    ∀ (d a : Nat), 1 ≤ a → a + d + 1 = N → ∀ (p : ResearchPlan) (replans : Nat)
      (reviewed : List ResearchPlan),
      planningLoop N c rp dec a (some p) replans reviewed =
        (PlanningResult.exhausted, replans + d,
         reviewed ++ p :: (List.range d).map (fun j => rp (a + 1 + j) (fbs (a + 1 + j)))) := by
  intro d
  induction d with
  | zero =>
    intro a ha hN p replans reviewed
    rw [planningLoop]
    have h1 : a < N := by omega
    have h2 : ¬(a + 1 = 1) := by omega
    have h3 : N ≤ a + 1 := by omega
    simp [h1, h2, h3, hdec (a + 1) (by omega) (by omega)]
  | succ d ih =>
    intro a ha hN p replans reviewed
    rw [planningLoop]
    have h1 : a < N := by omega
    have h2 : ¬(a + 1 = 1) := by omega
    have h3 : ¬(N ≤ a + 1) := by omega
    simp only [dif_pos h1, if_neg h2, hdec (a + 1) (by omega) (by omega), if_neg h3]
    rw [ih (a + 1) (by omega) (by omega)]
    have hr : replans + 1 + d = replans + (d + 1) := by omega
    rw [hr]
    have hl : (reviewed ++ [p]) ++ rp (a + 1) (fbs (a + 1)) ::
        (List.range d).map (fun j => rp (a + 1 + 1 + j) (fbs (a + 1 + 1 + j))) =
        reviewed ++ p :: (List.range (d + 1)).map (fun j => rp (a + 1 + j) (fbs (a + 1 + j))) := by
      rw [List.append_assoc, List.singleton_append]
      congr 1
      rw [List.range_succ_eq_map, List.map_cons, List.map_map]
      congr 1
      congr 1
      apply List.map_congr_left
      intro j _
      simp only [Function.comp_apply]
      have harg : a + 1 + Nat.succ j = a + 1 + 1 + j := by omega
      rw [harg]
    rw [hl]

/-- C1: with a budget of `N ≥ 1` attempts and a human who rejects at every
review, the planning phase ends in the terminal planning-exhausted error on
the Nth rejection, having made exactly one replan call per rejection before
the Nth (`N - 1` in total, never an `(N+1)`th), and each replanned plan was
re-entered into review (the reviewed-plan trace is the initial plan followed
by the `N - 1` replan outputs). -/
theorem spec_C1_bounded_replanning (N : Nat) (hN : 1 ≤ N) (c : ResearchPlan)
    (rp : Nat → String → ResearchPlan) (dec : Nat → PlanDecision) (fbs : Nat → String)
    (hdec : ∀ k, 1 ≤ k → k ≤ N → dec k = PlanDecision.reject (fbs k)) :
    planningPhase N c rp dec =
      (PlanningResult.exhausted, N - 1,
       c :: (List.range (N - 1)).map (fun j => rp (j + 1) (fbs (j + 1)))) := by
  rw [planningPhase, planningLoop]
  have h1 : 0 < N := hN
  by_cases hN1 : N = 1
  · subst hN1
    simp [hdec 1 (by omega) (by omega)]
  · have h3 : ¬(N ≤ 0 + 1) := by omega
    simp only [dif_pos h1, if_neg h3]
    norm_num
    simp only [hdec 1 (by omega) (by omega)]
    rw [planningLoop_all_reject N c rp dec fbs hdec (N - 2) 1 (by omega) (by omega)]
    have e2 : (1 : Nat) + (N - 2) = N - 1 := by omega
    rw [e2]
    have e3 : N - 1 = (N - 2) + 1 := by omega
    rw [e3, List.range_succ_eq_map, List.map_cons, List.map_map, List.singleton_append]
    have hlist : (List.range (N - 2)).map (fun j => rp (1 + 1 + j) (fbs (1 + 1 + j))) =
        (List.range (N - 2)).map ((fun j => rp (j + 1) (fbs (j + 1))) ∘ Nat.succ) := by
      apply List.map_congr_left
      intro j _
      simp only [Function.comp_apply]
      have harg : Nat.succ j + 1 = 1 + 1 + j := by omega
      rw [harg]
    rw [hlist]

/-- C1 witness: budget 3, three consecutive rejections: terminal exhaustion
with exactly 2 replan calls and the three reviewed plans in order. -/
theorem spec_C1_bounded_replanning_witness :
    planningPhase 3 ⟨"q", [], "s"⟩ (fun _ fb => ⟨fb, [], "s2"⟩)
      (fun _ => PlanDecision.reject "feedback") =
      (PlanningResult.exhausted, 2,
       [⟨"q", [], "s"⟩, ⟨"feedback", [], "s2"⟩, ⟨"feedback", [], "s2"⟩]) := by
  have h := spec_C1_bounded_replanning 3 (by decide) ⟨"q", [], "s"⟩
    (fun _ fb => ⟨fb, [], "s2"⟩) (fun _ => PlanDecision.reject "feedback")
    (fun _ => "feedback") (fun _ _ _ => rfl)
  simpa [List.range_succ] using h

/-- The acceptance condition of the reflection loop: explicit editor approval
or score at least the approval threshold (each sufficient on its own). -/
def goodFeedback (threshold : Int) (fb : EditorFeedback) : Prop :=
  fb.approved = true ∨ threshold ≤ fb.score

instance (threshold : Int) (fb : EditorFeedback) : Decidable (goodFeedback threshold fb) := by
  unfold goodFeedback; infer_instance

lemma reflectionLoop_all_bad (M : Nat) (th : Int) (ed : Nat → EditorFeedback)
    (rv : Nat → FinalReport → FinalReport) :
    ∀ (d a : Nat), a + d = M →
      (∀ k, a + 1 ≤ k → k ≤ M → ¬ goodFeedback th (ed k)) →
      ∀ (rep : FinalReport) (e r : Nat),
        (reflectionLoop M th ed rv a rep e r).2.1 = e + d ∧
        (reflectionLoop M th ed rv a rep e r).2.2.1 = r + (d - 1) ∧
        (reflectionLoop M th ed rv a rep e r).2.2.2 = ReflectionExit.budgetExhausted := by
  intro d
  induction d with
  | zero =>
    intro a ha hbad rep e r
    rw [reflectionLoop]
    have h1 : ¬(a < M) := by omega
    simp [h1]
  | succ d ih =>
    intro a ha hbad rep e r
    rw [reflectionLoop]
    have h1 : a < M := by omega
    have hb := hbad (a + 1) (by omega) (by omega)
    have hap : (ed (a + 1)).approved = false := by
      cases ht : (ed (a + 1)).approved with
      | false => rfl
      | true => exact absurd (Or.inl ht) hb
    have hsc : ¬(th ≤ (ed (a + 1)).score) := fun hs => hb (Or.inr hs)
    by_cases hM : M ≤ a + 1
    · have hd0 : d = 0 := by omega
      subst hd0
      simp [h1, hap, hsc, hM]
    · have hrec := ih (a + 1) (by omega) (fun k hk1 hk2 => hbad k (by omega) hk2)
        (rv (a + 1) rep) (e + 1) (r + 1)
      simp only [dif_pos h1, hap, Bool.false_eq_true, if_false, if_neg hsc, if_neg hM]
      refine ⟨?_, ?_, hrec.2.2⟩
      · rw [hrec.1]; omega
      · rw [hrec.2.1]; omega

lemma reflectionLoop_first_good (M : Nat) (th : Int) (ed : Nat → EditorFeedback)
    (rv : Nat → FinalReport → FinalReport) (k0 : Nat) (hk0M : k0 ≤ M)
    (hgood : goodFeedback th (ed k0)) :
    ∀ (d a : Nat), a + d = k0 → 1 ≤ d →
      (∀ k, a + 1 ≤ k → k < k0 → ¬ goodFeedback th (ed k)) →
      ∀ (rep : FinalReport) (e r : Nat),
        (reflectionLoop M th ed rv a rep e r).2.1 = e + d ∧
        (reflectionLoop M th ed rv a rep e r).2.2.1 = r + (d - 1) ∧
        (reflectionLoop M th ed rv a rep e r).2.2.2 =
          (if (ed k0).approved then ReflectionExit.editorApproved
           else ReflectionExit.thresholdMet) := by
  intro d
  induction d with
  | zero =>
    intro a ha hd
    exact absurd hd (by omega)
  | succ d ih =>
    intro a ha hd hbad rep e r
    rw [reflectionLoop]
    have h1 : a < M := by omega
    by_cases hd0 : d = 0
    · subst hd0
      have hk : k0 = a + 1 := by omega
      subst hk
      by_cases hap : (ed (a + 1)).approved = true
      · simp [h1, hap]
      · have hsc : th ≤ (ed (a + 1)).score := hgood.resolve_left hap
        simp [h1, hap, hsc]
    · have hbad1 := hbad (a + 1) (by omega) (by omega)
      have hap : (ed (a + 1)).approved = false := by
        cases ht : (ed (a + 1)).approved with
        | false => rfl
        | true => exact absurd (Or.inl ht) hbad1
      have hsc : ¬(th ≤ (ed (a + 1)).score) := fun hs => hbad1 (Or.inr hs)
      have hM : ¬(M ≤ a + 1) := by omega
      have hrec := ih (a + 1) (by omega) (by omega) (fun k hk1 hk2 => hbad k (by omega) hk2)
        (rv (a + 1) rep) (e + 1) (r + 1)
      simp only [dif_pos h1, hap, Bool.false_eq_true, if_false, if_neg hsc, if_neg hM]
      refine ⟨?_, ?_, hrec.2.2⟩
      · rw [hrec.1]; omega
      · rw [hrec.2.1]; omega

/-- C2: for every editor-feedback sequence the reflection loop makes at most
`max_reflection_iterations` editor calls and always returns a report; it ends
in the budget-exhausted branch (with `M` editor calls and `M - 1` revisions)
exactly when no feedback in the budget is approving, and otherwise it stops
at the first good feedback, with the approved flag and the score threshold
each sufficient on their own. -/
theorem spec_C2_reflection_termination (M : Nat) (th : Int) (ed : Nat → EditorFeedback)
    (rv : Nat → FinalReport → FinalReport) (draft : FinalReport) :
    (writingPhase M th ed rv draft).2.1 ≤ M ∧
    ((writingPhase M th ed rv draft).2.2.2 = ReflectionExit.budgetExhausted ↔
      ∀ k, 1 ≤ k → k ≤ M → ¬ goodFeedback th (ed k)) ∧
    ((writingPhase M th ed rv draft).2.2.2 = ReflectionExit.budgetExhausted →
      (writingPhase M th ed rv draft).2.1 = M ∧
      (writingPhase M th ed rv draft).2.2.1 = M - 1) ∧
    (∀ k0, 1 ≤ k0 → k0 ≤ M → goodFeedback th (ed k0) →
      (∀ k, 1 ≤ k → k < k0 → ¬ goodFeedback th (ed k)) →
      (writingPhase M th ed rv draft).2.1 = k0 ∧
      (writingPhase M th ed rv draft).2.2.2 =
        (if (ed k0).approved then ReflectionExit.editorApproved
         else ReflectionExit.thresholdMet)) := by
  simp only [writingPhase]
  by_cases hG : ∀ k, 1 ≤ k → k ≤ M → ¬ goodFeedback th (ed k)
  · have h := reflectionLoop_all_bad M th ed rv M 0 (by omega)
      (fun k hk1 hk2 => hG k hk1 hk2) draft 0 0
    refine ⟨by rw [h.1]; omega, ⟨fun _ => hG, fun _ => h.2.2⟩,
      fun _ => ⟨by rw [h.1]; omega, by rw [h.2.1]; omega⟩, ?_⟩
    intro k0 h1 h2 hgood _
    exact absurd hgood (hG k0 h1 h2)
  · push_neg at hG
    obtain ⟨kx, hkx1, hkxM, hkxg⟩ := hG
    have hex : ∃ k, 1 ≤ k ∧ k ≤ M ∧ goodFeedback th (ed k) := ⟨kx, hkx1, hkxM, hkxg⟩
    have hk0 := Nat.find_spec hex
    have hmin : ∀ k, 1 ≤ k → k < Nat.find hex → ¬ goodFeedback th (ed k) := by
      intro k h1 hlt hg
      exact Nat.find_min hex hlt ⟨h1, by omega, hg⟩
    have h := reflectionLoop_first_good M th ed rv (Nat.find hex) hk0.2.1 hk0.2.2
      (Nat.find hex) 0 (by omega) hk0.1 (fun k hk1 hk2 => hmin k (by omega) hk2) draft 0 0
    have hne : (reflectionLoop M th ed rv 0 draft 0 0).2.2.2 ≠
        ReflectionExit.budgetExhausted := by
      rw [h.2.2]
      cases hb : (ed (Nat.find hex)).approved <;> simp [hb]
    refine ⟨by rw [h.1]; omega, ⟨fun hexh => absurd hexh hne,
      fun hall => ((hall (Nat.find hex) hk0.1 hk0.2.1) hk0.2.2).elim⟩,
      fun hexh => absurd hexh hne, ?_⟩
    intro k0' h1' h2' hgood' hmin'
    have hle : Nat.find hex ≤ k0' := Nat.find_min' hex ⟨h1', h2', hgood'⟩
    have heq : k0' = Nat.find hex := by
      by_contra hne'
      exact hmin' (Nat.find hex) hk0.1 (by omega) hk0.2.2
    subst heq
    exact ⟨by rw [h.1]; omega, h.2.2⟩

/-- C2 witness: threshold 7, feedback score 5 on iteration 1 and score 8 on
iteration 2 with a budget of 3: exactly two editor calls, stopping through
the score-threshold path. -/
theorem spec_C2_reflection_termination_witness :
    (writingPhase 3 7
      (fun k => if k = 1 then ⟨false, 5, [], []⟩ else ⟨false, 8, [], []⟩)
      (fun _ r => r) ⟨"t", "c", [], 1⟩).2.1 = 2 ∧
    (writingPhase 3 7
      (fun k => if k = 1 then ⟨false, 5, [], []⟩ else ⟨false, 8, [], []⟩)
      (fun _ r => r) ⟨"t", "c", [], 1⟩).2.2.2 = ReflectionExit.thresholdMet := by
  have h := (spec_C2_reflection_termination 3 7
    (fun k => if k = 1 then ⟨false, 5, [], []⟩ else ⟨false, 8, [], []⟩)
    (fun _ r => r) ⟨"t", "c", [], 1⟩).2.2.2 2 (by decide) (by decide)
    (by decide)
    (fun k hk1 hk2 => by
      have hk : k = 1 := by omega
      subst hk
      decide)
  exact ⟨h.1, by simpa using h.2⟩

/-- Common shape of the two append-if-new passes of
`_build_enriched_sources`. -/
def appendIfNewUrl {α : Type} (key : α → String) (mk : α → EnrichedSource)
    (acc : List EnrichedSource) (x : α) : List EnrichedSource :=
  if (acc.map (·.url)).contains (key x) then acc else acc ++ [mk x]

lemma appendPaperIfNew_eq :
    appendPaperIfNew = appendIfNewUrl (fun p => p.url) (fun p => paperSource p.url p) := rfl

lemma appendArticleIfNew_eq :
    appendArticleIfNew = appendIfNewUrl (fun a => a.url) (fun a => articleSource a.url a) := rfl

lemma enrichTavilyResult_url (ps : List ArXivPaper) (ws : List WikiArticle)
    (r : TavilyResult) : (enrichTavilyResult ps ws r).url = r.url := by
  rcases hp : ps.find? (fun p => p.url == r.url) with _ | p
  · rcases ha : ws.find? (fun a => a.url == r.url) with _ | a
    · simp [enrichTavilyResult, hp, ha, webSource]
    · simp [enrichTavilyResult, hp, ha, articleSource]
  · simp [enrichTavilyResult, hp, paperSource]

lemma foldl_appendIfNewUrl_structure {α : Type} (key : α → String) (mk : α → EnrichedSource)
    (hkey : ∀ x, (mk x).url = key x) (xs : List α) :
    ∀ acc, ∃ extra, xs.foldl (appendIfNewUrl key mk) acc = acc ++ extra ∧
      ∀ s ∈ extra, (∃ x ∈ xs, s = mk x) ∧ s.url ∉ acc.map (fun t => t.url) := by
  induction xs with
  | nil => intro acc; exact ⟨[], by simp⟩
  | cons x rest ih =>
    intro acc
    simp only [List.foldl_cons]
    by_cases hc : ((acc.map (fun t => t.url)).contains (key x)) = true
    · have hstep : appendIfNewUrl key mk acc x = acc := by
        simp only [appendIfNewUrl]
        rw [if_pos hc]
      rw [hstep]
      obtain ⟨extra, he, hprop⟩ := ih acc
      refine ⟨extra, he, ?_⟩
      intro s hs
      obtain ⟨⟨x', hx', hsx⟩, hurl⟩ := hprop s hs
      exact ⟨⟨x', List.mem_cons_of_mem _ hx', hsx⟩, hurl⟩
    · have hstep : appendIfNewUrl key mk acc x = acc ++ [mk x] := by
        simp only [appendIfNewUrl]
        rw [if_neg hc]
      rw [hstep]
      obtain ⟨extra, he, hprop⟩ := ih (acc ++ [mk x])
      refine ⟨mk x :: extra, by rw [he]; simp, ?_⟩
      intro s hs
      rcases List.mem_cons.mp hs with rfl | htail
      · refine ⟨⟨x, List.mem_cons_self x rest, rfl⟩, ?_⟩
        rw [hkey]
        intro hmem
        exact hc (by simpa using hmem)
      · obtain ⟨⟨x', hx', hsx⟩, hurl⟩ := hprop s htail
        refine ⟨⟨x', List.mem_cons_of_mem _ hx', hsx⟩, ?_⟩
        intro hmem
        exact hurl (by simp [hmem])

lemma foldl_appendIfNewUrl_acc_sub {α : Type} (key : α → String) (mk : α → EnrichedSource)
    (hkey : ∀ x, (mk x).url = key x) (xs : List α) (acc : List EnrichedSource)
    (s : EnrichedSource) (hs : s ∈ acc) : s ∈ xs.foldl (appendIfNewUrl key mk) acc := by
  obtain ⟨extra, he, _⟩ := foldl_appendIfNewUrl_structure key mk hkey xs acc
  rw [he]
  exact List.mem_append_left _ hs

lemma foldl_appendIfNewUrl_url_sub {α : Type} (key : α → String) (mk : α → EnrichedSource)
    (hkey : ∀ x, (mk x).url = key x) (xs : List α) (acc : List EnrichedSource)
    (u : String) (hu : u ∈ acc.map (fun t => t.url)) :
    u ∈ (xs.foldl (appendIfNewUrl key mk) acc).map (fun t => t.url) := by
  obtain ⟨extra, he, _⟩ := foldl_appendIfNewUrl_structure key mk hkey xs acc
  rw [he, List.map_append]
  exact List.mem_append_left _ hu

lemma foldl_appendIfNewUrl_key_mem {α : Type} (key : α → String) (mk : α → EnrichedSource)
    (hkey : ∀ x, (mk x).url = key x) (xs : List α) :
    ∀ acc x, x ∈ xs → key x ∈ (xs.foldl (appendIfNewUrl key mk) acc).map (fun t => t.url) := by
  induction xs with
  | nil => intro acc x hx; simp at hx
  | cons y rest ih =>
    intro acc x hx
    simp only [List.foldl_cons]
    rcases List.mem_cons.mp hx with rfl | htail
    · by_cases hc : ((acc.map (fun t => t.url)).contains (key x)) = true
      · have hstep : appendIfNewUrl key mk acc x = acc := by
          simp only [appendIfNewUrl]; rw [if_pos hc]
        rw [hstep]
        exact foldl_appendIfNewUrl_url_sub key mk hkey rest acc (key x) (by simpa using hc)
      · have hstep : appendIfNewUrl key mk acc x = acc ++ [mk x] := by
          simp only [appendIfNewUrl]; rw [if_neg hc]
        rw [hstep]
        refine foldl_appendIfNewUrl_url_sub key mk hkey rest _ (key x) ?_
        rw [List.map_append]
        refine List.mem_append_right _ ?_
        simp [hkey]
    · exact ih (appendIfNewUrl key mk acc y) x htail

lemma foldl_appendIfNewUrl_nodup {α : Type} (key : α → String) (mk : α → EnrichedSource)
    (hkey : ∀ x, (mk x).url = key x) (xs : List α) :
    ∀ acc, (acc.map (fun t => t.url)).Nodup →
      ((xs.foldl (appendIfNewUrl key mk) acc).map (fun t => t.url)).Nodup := by
  induction xs with
  | nil => intro acc h; simpa using h
  | cons x rest ih =>
    intro acc h
    simp only [List.foldl_cons]
    by_cases hc : ((acc.map (fun t => t.url)).contains (key x)) = true
    · have hstep : appendIfNewUrl key mk acc x = acc := by
        simp only [appendIfNewUrl]; rw [if_pos hc]
      rw [hstep]
      exact ih acc h
    · have hstep : appendIfNewUrl key mk acc x = acc ++ [mk x] := by
        simp only [appendIfNewUrl]; rw [if_neg hc]
      rw [hstep]
      refine ih _ ?_
      rw [List.map_append]
      rw [List.nodup_append]
      refine ⟨h, by simp, ?_⟩
      intro u hu
      simp only [List.map_cons, List.map_nil, List.mem_singleton, hkey]
      intro hueq
      subst hueq
      exact hc (by simpa using hu)

lemma enrichTavilyResult_type_arxiv (ps : List ArXivPaper) (ws : List WikiArticle)
    (r : TavilyResult) (hp : ∃ p ∈ ps, p.url = r.url) :
    (enrichTavilyResult ps ws r).source_type = SourceType.arxiv := by
  rcases hfind : ps.find? (fun p => p.url == r.url) with _ | p'
  · exfalso
    obtain ⟨p, hpmem, hpeq⟩ := hp
    have hnone := List.find?_eq_none.mp hfind p hpmem
    simp [hpeq] at hnone
  · simp [enrichTavilyResult, hfind, paperSource]

lemma enrichTavilyResult_type_wiki (ps : List ArXivPaper) (ws : List WikiArticle)
    (r : TavilyResult) (hnp : ¬∃ p ∈ ps, p.url = r.url) (ha : ∃ a ∈ ws, a.url = r.url) :
    (enrichTavilyResult ps ws r).source_type = SourceType.wikipedia := by
  have hfind : ps.find? (fun p => p.url == r.url) = none := by
    apply List.find?_eq_none.mpr
    intro p hpmem
    simp only [beq_eq_false_iff_ne, ne_eq, Bool.not_eq_true, beq_iff_eq]
    intro heq
    exact hnp ⟨p, hpmem, heq⟩
  rcases hfindw : ws.find? (fun a => a.url == r.url) with _ | a'
  · exfalso
    obtain ⟨a, ham, haeq⟩ := ha
    have hnone := List.find?_eq_none.mp hfindw a ham
    simp [haeq] at hnone
  · simp [enrichTavilyResult, hfind, hfindw, articleSource]

lemma enrichTavilyResult_web_eq (ps : List ArXivPaper) (ws : List WikiArticle)
    (r : TavilyResult) (hnp : ¬∃ p ∈ ps, p.url = r.url) (hna : ¬∃ a ∈ ws, a.url = r.url) :
    enrichTavilyResult ps ws r = webSource r := by
  have hfind : ps.find? (fun p => p.url == r.url) = none := by
    apply List.find?_eq_none.mpr
    intro p hpmem
    simp only [beq_eq_false_iff_ne, ne_eq, Bool.not_eq_true, beq_iff_eq]
    intro heq
    exact hnp ⟨p, hpmem, heq⟩
  have hfindw : ws.find? (fun a => a.url == r.url) = none := by
    apply List.find?_eq_none.mpr
    intro a ham
    simp only [beq_eq_false_iff_ne, ne_eq, Bool.not_eq_true, beq_iff_eq]
    intro heq
    exact hna ⟨a, ham, heq⟩
  simp [enrichTavilyResult, hfind, hfindw]

lemma pass1_urls (ps : List ArXivPaper) (ws : List WikiArticle) (ts : List TavilyResult) :
    ((ts.map (enrichTavilyResult ps ws)).map (fun t => t.url)) = ts.map (fun r => r.url) := by
  rw [List.map_map]
  apply List.map_congr_left
  intro r _
  exact enrichTavilyResult_url ps ws r

/-- C4 (amended): provided the raw search results have pairwise-distinct URLs,
the merged source list has pairwise-distinct URLs; every raw URL, every paper
URL and every article URL occurs exactly once; a raw result matching an
enrichment result is replaced by the enriched record (every source carrying
that URL is arXiv-typed, Wikipedia-typed when only an article matches), a raw
result matching nothing is kept as the `web`-typed source, and enrichment
results absent from the raw results are appended exactly once. -/
theorem spec_C4_merge_distinct_urls (ts : List TavilyResult) (ps : List ArXivPaper)
    (ws : List WikiArticle) (hND : (ts.map (fun r => r.url)).Nodup) :
    (((build_enriched_sources ts ps ws).map (fun s => s.url)).Nodup) ∧
    (∀ r ∈ ts, ((build_enriched_sources ts ps ws).map (fun s => s.url)).count r.url = 1) ∧
    (∀ p ∈ ps, ((build_enriched_sources ts ps ws).map (fun s => s.url)).count p.url = 1) ∧
    (∀ a ∈ ws, ((build_enriched_sources ts ps ws).map (fun s => s.url)).count a.url = 1) ∧
    (∀ r ∈ ts, (∃ p ∈ ps, p.url = r.url) →
      ∀ s ∈ build_enriched_sources ts ps ws, s.url = r.url →
        s.source_type = SourceType.arxiv) ∧
    (∀ r ∈ ts, (¬∃ p ∈ ps, p.url = r.url) → (∃ a ∈ ws, a.url = r.url) →
      ∀ s ∈ build_enriched_sources ts ps ws, s.url = r.url →
        s.source_type = SourceType.wikipedia) ∧
    (∀ r ∈ ts, (¬∃ p ∈ ps, p.url = r.url) → (¬∃ a ∈ ws, a.url = r.url) →
      webSource r ∈ build_enriched_sources ts ps ws) := by
  have hkeyP : ∀ p : ArXivPaper, (paperSource p.url p).url = p.url := fun _ => rfl
  have hkeyA : ∀ a : WikiArticle, (articleSource a.url a).url = a.url := fun _ => rfl
  have hp2 : ps.foldl appendPaperIfNew (ts.map (enrichTavilyResult ps ws)) =
      ps.foldl (appendIfNewUrl (fun p => p.url) (fun p => paperSource p.url p))
        (ts.map (enrichTavilyResult ps ws)) := by rw [appendPaperIfNew_eq]
  have hout : build_enriched_sources ts ps ws =
      ws.foldl (appendIfNewUrl (fun a => a.url) (fun a => articleSource a.url a))
        (ps.foldl appendPaperIfNew (ts.map (enrichTavilyResult ps ws))) := by
    rw [← appendArticleIfNew_eq]; rfl
  have hurl1 : ((ts.map (enrichTavilyResult ps ws)).map (fun t => t.url)) =
      ts.map (fun r => r.url) := pass1_urls ps ws ts
  have hnd1 : ((ts.map (enrichTavilyResult ps ws)).map (fun t => t.url)).Nodup := by
    rw [hurl1]; exact hND
  have hnd2 : ((ps.foldl appendPaperIfNew (ts.map (enrichTavilyResult ps ws))).map
      (fun t => t.url)).Nodup := by
    rw [hp2]
    exact foldl_appendIfNewUrl_nodup _ _ hkeyP ps _ hnd1
  have hndout : ((build_enriched_sources ts ps ws).map (fun t => t.url)).Nodup := by
    rw [hout]
    exact foldl_appendIfNewUrl_nodup _ _ hkeyA ws _ hnd2
  have hmem1 : ∀ r ∈ ts, r.url ∈ ((ts.map (enrichTavilyResult ps ws)).map (fun t => t.url)) := by
    intro r hr
    rw [hurl1]
    exact List.mem_map_of_mem _ hr
  have hmono12 : ∀ u, u ∈ ((ts.map (enrichTavilyResult ps ws)).map (fun t => t.url)) →
      u ∈ ((ps.foldl appendPaperIfNew (ts.map (enrichTavilyResult ps ws))).map
        (fun t => t.url)) := by
    intro u hu
    rw [hp2]
    exact foldl_appendIfNewUrl_url_sub _ _ hkeyP ps _ u hu
  have hmono2out : ∀ u, u ∈ ((ps.foldl appendPaperIfNew
      (ts.map (enrichTavilyResult ps ws))).map (fun t => t.url)) →
      u ∈ ((build_enriched_sources ts ps ws).map (fun t => t.url)) := by
    intro u hu
    rw [hout]
    exact foldl_appendIfNewUrl_url_sub _ _ hkeyA ws _ u hu
  have hcount : ∀ u, u ∈ ((build_enriched_sources ts ps ws).map (fun t => t.url)) →
      ((build_enriched_sources ts ps ws).map (fun s => s.url)).count u = 1 := by
    intro u hu
    exact List.count_eq_one_of_mem hndout hu
  obtain ⟨extraP, heP, hpropP⟩ :=
    foldl_appendIfNewUrl_structure (fun p : ArXivPaper => p.url)
      (fun p => paperSource p.url p) hkeyP ps (ts.map (enrichTavilyResult ps ws))
  have heP' : ps.foldl appendPaperIfNew (ts.map (enrichTavilyResult ps ws)) =
      ts.map (enrichTavilyResult ps ws) ++ extraP := by rw [hp2]; exact heP
  obtain ⟨extraW, heW, hpropW⟩ :=
    foldl_appendIfNewUrl_structure (fun a : WikiArticle => a.url)
      (fun a => articleSource a.url a) hkeyA ws
      (ps.foldl appendPaperIfNew (ts.map (enrichTavilyResult ps ws)))
  have houtW : build_enriched_sources ts ps ws =
      ps.foldl appendPaperIfNew (ts.map (enrichTavilyResult ps ws)) ++ extraW := by
    rw [hout]; exact heW
  refine ⟨hndout, ?_, ?_, ?_, ?_, ?_, ?_⟩
  · intro r hr
    exact hcount _ (hmono2out _ (hmono12 _ (hmem1 r hr)))
  · intro p hp
    refine hcount _ (hmono2out _ ?_)
    rw [hp2]
    exact foldl_appendIfNewUrl_key_mem _ _ hkeyP ps _ p hp
  · intro a ha
    rw [hout]
    exact hcount _ (by
      rw [hout]
      exact foldl_appendIfNewUrl_key_mem _ _ hkeyA ws _ a ha)
  · intro r hr hex s hs hsurl
    rw [houtW] at hs
    rcases List.mem_append.mp hs with hs2 | hsW
    · rw [heP'] at hs2
      rcases List.mem_append.mp hs2 with hs1 | hsP
      · obtain ⟨r', hr', hfe⟩ := List.mem_map.mp hs1
        have hru' : r'.url = r.url := by
          rw [← enrichTavilyResult_url ps ws r', hfe]
          exact hsurl
        rw [← hfe]
        apply enrichTavilyResult_type_arxiv
        obtain ⟨p, hpm, hpe⟩ := hex
        exact ⟨p, hpm, by rw [hpe, hru']⟩
      · obtain ⟨⟨p', _, hsp⟩, _⟩ := hpropP s hsP
        rw [hsp]
        rfl
    · exfalso
      obtain ⟨_, hfresh⟩ := hpropW s hsW
      apply hfresh
      rw [hsurl]
      exact hmono12 _ (hmem1 r hr)
  · intro r hr hnp hex s hs hsurl
    rw [houtW] at hs
    rcases List.mem_append.mp hs with hs2 | hsW
    · rw [heP'] at hs2
      rcases List.mem_append.mp hs2 with hs1 | hsP
      · obtain ⟨r', hr', hfe⟩ := List.mem_map.mp hs1
        have hru' : r'.url = r.url := by
          rw [← enrichTavilyResult_url ps ws r', hfe]
          exact hsurl
        rw [← hfe]
        apply enrichTavilyResult_type_wiki
        · rintro ⟨p, hpm, hpe⟩
          exact hnp ⟨p, hpm, by rw [hpe, ← hru']⟩
        · obtain ⟨a, ham, hae⟩ := hex
          exact ⟨a, ham, by rw [hru']; exact hae⟩
      · exfalso
        obtain ⟨⟨p', hp', hsp⟩, _⟩ := hpropP s hsP
        apply hnp
        refine ⟨p', hp', ?_⟩
        rw [← hsurl, hsp]
        rfl
    · obtain ⟨⟨a', _, hsa⟩, _⟩ := hpropW s hsW
      rw [hsa]
      rfl
  · intro r hr hnp hna
    have hew : enrichTavilyResult ps ws r = webSource r :=
      enrichTavilyResult_web_eq ps ws r hnp hna
    have h1 : webSource r ∈ ts.map (enrichTavilyResult ps ws) := by
      rw [← hew]
      exact List.mem_map_of_mem _ hr
    have h2 : webSource r ∈ ps.foldl appendPaperIfNew (ts.map (enrichTavilyResult ps ws)) := by
      rw [hp2]
      exact foldl_appendIfNewUrl_acc_sub _ _ hkeyP ps _ _ h1
    rw [hout]
    exact foldl_appendIfNewUrl_acc_sub _ _ hkeyA ws _ _ h2

/-- C4 witness: a single raw result with no enrichment: the merged URL list is
duplicate-free. -/
theorem spec_C4_merge_distinct_urls_witness :
    ((build_enriched_sources [⟨"t1", "https://example.com/a", "c1", 0⟩] [] []).map
      (fun s => s.url)).Nodup :=
  (spec_C4_merge_distinct_urls [⟨"t1", "https://example.com/a", "c1", 0⟩] [] []
    (by decide)).1

/-- C4 counterexample: as stated over every raw-result list, the claim fails —
two raw results sharing a URL (and no enrichment) are both kept, so the
merged list repeats that URL. -/
theorem spec_C4_merge_counterexample :
    ((build_enriched_sources
        [⟨"t1", "https://example.com/a", "c1", 0⟩, ⟨"t2", "https://example.com/a", "c2", 0⟩]
        [] []).map (fun s => s.url)) =
      ["https://example.com/a", "https://example.com/a"] ∧
    ((build_enriched_sources
        [⟨"t1", "https://example.com/a", "c1", 0⟩, ⟨"t2", "https://example.com/a", "c2", 0⟩]
        [] []).map (fun s => s.url)).count "https://example.com/a" = 2 := by
  constructor <;> decide
